import Mathlib

/-!
Verification of the sparse-set integer-set package (package intset).

The Go source holds two near-duplicate variants of the same data structure.
An IntSet is a record of a count (field length), a sparse index slice
(field keys, indexed by candidate value, holding slot positions) and a dense
slice (field set, whose first length slots hold the members).

Modelling choices, justified against the source:
- Go's int fields length and the entries of keys only ever hold
  non-negative values (length starts at 0, is incremented, and is
  decremented only under a guard that forces it positive; keys entries are
  zero-initialised by make and are only ever assigned a current length or a
  current keys entry), so they are modelled as Nat.  Member values are Go
  ints that may be negative at call boundaries, so they are modelled as Int.
- Slice reads are modelled with List.getD; every read performed by the
  first variant is within bounds on every state reachable through the API
  (established by the representation invariant Inv, proved preserved below).
- The second variant's Contains reads keys at the raw value with no
  lower-bound check, so a negative argument makes Go panic with an index
  out of range; that possibility is modelled by an Option result (none is
  the panic).  Its Remove is built on that Contains and inherits the panic.
- make with a negative length panics in Go, so New takes the Go int
  argument and returns none for a negative universe size.
- Choose draws a random index from crypto/rand; the draw is modelled as an
  explicit argument of type Except Unit Nat (the result of rand.Int, an
  error or a number below the bound the caller passed).  Choose never
  writes the receiver, which the pure embedding reflects by construction.
-/

namespace intset

structure IntSet where
  length : Nat
  keys : List Nat
  set : List Int
deriving DecidableEq

namespace IntSet

/-- Go, first variant: return false for a value outside the universe,
otherwise check the slot recorded in keys against the dense slice. -/
def Contains (is : IntSet) (value : Int) : Bool :=
  if value < 0 ∨ (is.keys.length : Int) ≤ value then
    false
  else
    let setSlot := is.keys.getD value.toNat 0
    decide (setSlot < is.length ∧ is.set.getD setSlot 0 = value)

/-- Go, both variants, body of the loop of Add: skip a value outside the
universe or already a member, otherwise record it at the next free slot. -/
def add1 (is : IntSet) (v : Int) : IntSet :=
  if 0 ≤ v ∧ v < (is.keys.length : Int) ∧ is.Contains v = false then
    { length := is.length + 1
      keys := is.keys.set v.toNat is.length
      set := is.set.set is.length v }
  else is

/-- Go, both variants: Add iterates add1 over the argument list in order. -/
def Add (is : IntSet) (values : List Int) : IntSet :=
  values.foldl add1 is

/-- Go, first variant, body of the loop of Remove: a non-member is skipped;
a member is removed by moving the last member into its slot (skipped when
the member is itself the last) and shrinking the count. -/
def remove1 (is : IntSet) (v : Int) : IntSet :=
  if is.Contains v = true then
    let valueToMove := is.set.getD (is.length - 1) 0
    let is1 :=
      if valueToMove ≠ v then
        let valueToReplace := is.keys.getD v.toNat 0
        { is with set := is.set.set valueToReplace valueToMove
                  keys := is.keys.set valueToMove.toNat valueToReplace }
      else is
    { is1 with length := is1.length - 1 }
  else is

/-- Go, first variant: Remove iterates remove1, breaking out of the loop as
soon as the set is empty (the break is checked before each value). -/
def Remove : IntSet → List Int → IntSet
  | is, [] => is
  | is, v :: rest => if is.length = 0 then is else Remove (is.remove1 v) rest

/-- Go, both variants: Length returns the count field. -/
def Length (is : IntSet) : Nat := is.length

/-- Go, both variants: Empty tests the count field against zero. -/
def Empty (is : IntSet) : Bool := is.length == 0

/-- Go, first variant: UniverseSize is the physical length of keys (the
second variant calls the same accessor Capacity). -/
def UniverseSize (is : IntSet) : Nat := is.keys.length

/-- Go, both variants: Values copies the dense prefix set with 0 up to
length exclusive. -/
def Values (is : IntSet) : List Int := is.set.take is.length

/-- Go, both variants: the receiver variant of Union adds every member of
the other set. -/
def Union (is other : IntSet) : IntSet := is.Add (other.set.take other.length)

/-- Go, both variants: the receiver variant of Difference removes every
member of the other set. -/
def Difference (is other : IntSet) : IntSet := is.Remove (other.set.take other.length)

/-- Go, both variants: Choose returns 0 and no error on an empty set, and
otherwise the member at the drawn index; the draw result stands for the
return of rand.Int over the half-open range from 0 to length. -/
def Choose (is : IntSet) (randInt : Except Unit Nat) : Except Unit Int :=
  if is.Empty = true then Except.ok 0
  else
    match randInt with
    | Except.error e => Except.error e
    | Except.ok ip => Except.ok (is.set.getD ip 0)

/-- Go helper for the textual rendering loop shared by both variants: each
member is appended, followed by a space except after the final member. -/
def renderFrom : List Int → Nat → Nat → String → String
  | [], _, _, acc => acc
  | v :: rest, i, len, acc =>
      renderFrom rest (i + 1) len (acc ++ toString v ++ if i < len - 1 then " " else "")

/-- Go, both variants, the method named String: members in storage order,
space separated, between brackets. -/
def toGoString (is : IntSet) : String :=
  renderFrom (is.set.take is.length) 0 is.length "[" ++ "]"

end IntSet

/-- Go, both variants, New for a universe size already known non-negative:
both backing slices are allocated zero-filled at the universe size, the
count starts at 0, and the optional initial values are passed through Add. -/
def NewN (universeSize : Nat) (values : List Int) : IntSet :=
  IntSet.Add
    { length := 0
      keys := List.replicate universeSize 0
      set := List.replicate universeSize 0 }
    values

/-- Go, both variants, New on the raw int argument: make rejects a negative
slice length with a panic, modelled as none. -/
def New (universeSize : Int) (values : List Int) : Option IntSet :=
  if universeSize < 0 then none
  else some (NewN universeSize.toNat values)

/-- Go, both variants: Copy rebuilds a set through New from the current
members, with the same universe size and fresh backing storage. -/
def IntSet.Copy (is : IntSet) : IntSet :=
  NewN is.keys.length (is.set.take is.length)

/-- Go, both variants: the two-argument Union copies the left set and merges
the right set into the copy. -/
def Union (lhs rhs : IntSet) : IntSet := lhs.Copy.Union rhs

/-- Go, both variants: the two-argument Difference copies the left set and
removes the right set's members from the copy. -/
def Difference (lhs rhs : IntSet) : IntSet := lhs.Copy.Difference rhs

namespace IntSet

/-- Go, second variant, Contains: the guard checks only the upper bound, so
the read keys at value panics for a negative value; the later read of the
dense slice panics when the recorded slot is outside it.  Both panics are
modelled as none. -/
def Contains2 (is : IntSet) (value : Int) : Option Bool :=
  if value < (is.keys.length : Int) then
    if value < 0 then none
    else
      let slot := is.keys.getD value.toNat 0
      if slot < is.length then
        match is.set.get? slot with
        | none => none
        | some w => some (decide (w = value))
      else some false
  else some false

/-- Go, second variant, body of the loop of Remove: membership is checked
with the unguarded Contains, and the swap with the last slot is performed
unconditionally (with no test that the removed value is itself last). -/
def remove2 (is : IntSet) (v : Int) : Option IntSet :=
  match is.Contains2 v with
  | none => none
  | some false => some is
  | some true =>
      let kMoving := is.set.getD (is.length - 1) 0
      let kToBeReplaced := is.keys.getD v.toNat 0
      some { length := is.length - 1
             set := is.set.set kToBeReplaced kMoving
             keys := is.keys.set kMoving.toNat kToBeReplaced }

/-- Go, second variant: Remove iterates remove2 with no early break,
propagating a panic. -/
def Remove2 : IntSet → List Int → Option IntSet
  | is, [] => some is
  | is, v :: rest =>
      match is.remove2 v with
      | none => none
      | some is1 => Remove2 is1 rest

/-- Go, second variant: the receiver variant of Difference removes every
member of the other set through the second variant's Remove. -/
def Difference2 (is other : IntSet) : Option IntSet :=
  Remove2 is (other.set.take other.length)

end IntSet

/-- Go, second variant: the two-argument Difference copies the left set
(Copy is textually identical in both variants) and removes the right set's
members from the copy through the second variant's Remove. -/
def Difference2F (lhs rhs : IntSet) : Option IntSet :=
  IntSet.Difference2 lhs.Copy rhs

/-- Representation invariant of the structure, as the specification states
it: the two slices both have the universe size as physical length, the
count is bounded by it, the dense prefix holds values inside the universe,
and the sparse slice points each dense-prefix value back at its slot. -/
def Inv (is : IntSet) : Prop :=
  is.keys.length = is.set.length ∧
  is.length ≤ is.set.length ∧
  (∀ i, i < is.length → 0 ≤ is.set.getD i 0 ∧ is.set.getD i 0 < (is.keys.length : Int)) ∧
  (∀ i, i < is.length → is.keys.getD (is.set.getD i 0).toNat 0 = i)

/-- States reachable through the public constructors and operations. -/
inductive Reachable : IntSet → Prop where
  | new (universeSize : Nat) (values : List Int) : Reachable (NewN universeSize values)
  | add (is : IntSet) (values : List Int) : Reachable is → Reachable (is.Add values)
  | remove (is : IntSet) (values : List Int) : Reachable is → Reachable (is.Remove values)
  | unionM (is other : IntSet) : Reachable is → Reachable other → Reachable (is.Union other)
  | differenceM (is other : IntSet) : Reachable is → Reachable other →
      Reachable (is.Difference other)
  | copy (is : IntSet) : Reachable is → Reachable is.Copy
  | unionF (lhs rhs : IntSet) : Reachable lhs → Reachable rhs → Reachable (Union lhs rhs)
  | differenceF (lhs rhs : IntSet) : Reachable lhs → Reachable rhs →
      Reachable (Difference lhs rhs)

/-!
Heap model, used for the non-destructiveness of the two-argument Union and
Difference.  Go slices are references into a store; whether the free
functions mutate their arguments depends on which slices the writes of Add
and Remove target, which the pure value model above cannot express.  Here
the store is a list of integer arrays, a set holds the count by value and
its two slices by reference, and every slice read or write of the source
goes through the store.  Copy allocates two fresh arrays exactly as New
does in Go, so the theorem that the inputs' arrays are untouched holds
because every write of the merge targets the fresh references.
-/

structure HSet where
  length : Nat
  keysRef : Nat
  setRef : Nat
deriving DecidableEq

abbrev Heap := List (List Int)

/-- Store read: the array a reference designates. -/
def hget (h : Heap) (r : Nat) : List Int := h.getD r []

/-- Store write: replace the array a reference designates. -/
def hwrite (h : Heap) (r : Nat) (a : List Int) : Heap := h.set r a

/-- Allocation, as Go's make: a fresh reference to a new array. -/
def halloc (h : Heap) (a : List Int) : Heap × Nat := (h ++ [a], h.length)

/-- Contains of the first variant, reading both slices through the store. -/
def HContains (h : Heap) (is : HSet) (value : Int) : Bool :=
  if value < 0 ∨ ((hget h is.keysRef).length : Int) ≤ value then false
  else
    let setSlot := (hget h is.keysRef).getD value.toNat 0
    decide (setSlot < (is.length : Int) ∧ (hget h is.setRef).getD setSlot.toNat 0 = value)

/-- Body of the loop of Add, writing both slices through the store. -/
def HAdd1 (h : Heap) (is : HSet) (v : Int) : Heap × HSet :=
  if 0 ≤ v ∧ v < ((hget h is.keysRef).length : Int) ∧ HContains h is v = false then
    let h1 := hwrite h is.keysRef ((hget h is.keysRef).set v.toNat (is.length : Int))
    let h2 := hwrite h1 is.setRef ((hget h1 is.setRef).set is.length v)
    (h2, { is with length := is.length + 1 })
  else (h, is)

/-- Add over a list of values in the heap model. -/
def HAddList : Heap → HSet → List Int → Heap × HSet
  | h, is, [] => (h, is)
  | h, is, v :: rest => HAddList (HAdd1 h is v).1 (HAdd1 h is v).2 rest

/-- New in the heap model: two fresh zero-filled arrays, then Add. -/
def HNew (h : Heap) (size : Nat) (values : List Int) : Heap × HSet :=
  let a1 := halloc h (List.replicate size 0)
  let a2 := halloc a1.1 (List.replicate size 0)
  HAddList a2.1 { length := 0, keysRef := a1.2, setRef := a2.2 } values

/-- Copy in the heap model: New from the universe size and current members. -/
def HCopy (h : Heap) (is : HSet) : Heap × HSet :=
  HNew h (hget h is.keysRef).length ((hget h is.setRef).take is.length)

/-- Receiver Union in the heap model. -/
def HUnionM (h : Heap) (is other : HSet) : Heap × HSet :=
  HAddList h is ((hget h other.setRef).take other.length)

/-- Two-argument Union in the heap model: mutate a copy of the left set. -/
def HUnion (h : Heap) (lhs rhs : HSet) : Heap × HSet :=
  let c := HCopy h lhs
  HUnionM c.1 c.2 rhs

/-- Body of the loop of Remove (first variant) in the heap model. -/
def HRemove1 (h : Heap) (is : HSet) (v : Int) : Heap × HSet :=
  if HContains h is v = true then
    let valueToMove := (hget h is.setRef).getD (is.length - 1) 0
    let p :=
      if valueToMove ≠ v then
        let valueToReplace := (hget h is.keysRef).getD v.toNat 0
        let h1 := hwrite h is.setRef ((hget h is.setRef).set valueToReplace.toNat valueToMove)
        let h2 := hwrite h1 is.keysRef
          ((hget h1 is.keysRef).set valueToMove.toNat valueToReplace)
        (h2, is)
      else (h, is)
    (p.1, { p.2 with length := p.2.length - 1 })
  else (h, is)

/-- Remove over a list of values in the heap model, with the early break. -/
def HRemoveList : Heap → HSet → List Int → Heap × HSet
  | h, is, [] => (h, is)
  | h, is, v :: rest =>
      if is.length = 0 then (h, is)
      else HRemoveList (HRemove1 h is v).1 (HRemove1 h is v).2 rest

/-- Receiver Difference in the heap model. -/
def HDifferenceM (h : Heap) (is other : HSet) : Heap × HSet :=
  HRemoveList h is ((hget h other.setRef).take other.length)

/-- Two-argument Difference in the heap model: mutate a copy of the left set. -/
def HDifference (h : Heap) (lhs rhs : HSet) : Heap × HSet :=
  let c := HCopy h lhs
  HDifferenceM c.1 c.2 rhs

instance (is : IntSet) : Decidable (Inv is) := by
  unfold Inv
  infer_instance

/-! ### List indexing helpers -/

theorem getD_set_self {α : Type} (l : List α) (i : Nat) (a d : α) (h : i < l.length) :
    (l.set i a).getD i d = a := by
  rw [List.getD_eq_getElem?_getD, List.getElem?_set_self h]
  rfl

theorem getD_set_ne {α : Type} (l : List α) (i j : Nat) (a d : α) (h : i ≠ j) :
    (l.set i a).getD j d = l.getD j d := by
  rw [List.getD_eq_getElem?_getD, List.getElem?_set_ne h, ← List.getD_eq_getElem?_getD]

theorem set_getD_eq_self {α : Type} (l : List α) (i : Nat) (d : α) (h : i < l.length) :
    l.set i (l.getD i d) = l := by
  apply List.ext_getElem?
  intro n
  rw [List.getElem?_set]
  by_cases hn : i = n
  · subst hn
    rw [if_pos rfl, if_pos h, List.getD_eq_getElem l d h, List.getElem?_eq_getElem h]
  · rw [if_neg hn]

theorem mem_take_iff {α : Type} (l : List α) (n : Nat) (d : α) (hn : n ≤ l.length) (v : α) :
    v ∈ l.take n ↔ ∃ i, i < n ∧ l.getD i d = v := by
  rw [List.mem_iff_getElem]
  constructor
  · rintro ⟨i, h, rfl⟩
    have hi : i < n := by
      have := List.length_take n l
      omega
    exact ⟨i, hi, by rw [List.getD_eq_getElem l d (lt_of_lt_of_le hi hn), List.getElem_take]⟩
  · rintro ⟨i, hi, hv⟩
    have h : i < (l.take n).length := by
      rw [List.length_take]
      omega
    refine ⟨i, h, ?_⟩
    rw [List.getElem_take]
    rw [List.getD_eq_getElem l d (lt_of_lt_of_le hi hn)] at hv
    exact hv

/-! ### Characterisation of Contains (first variant) -/

theorem contains_iff (is : IntSet) (v : Int) :
    is.Contains v = true ↔
      0 ≤ v ∧ v < (is.keys.length : Int) ∧ is.keys.getD v.toNat 0 < is.length ∧
        is.set.getD (is.keys.getD v.toNat 0) 0 = v := by
  unfold IntSet.Contains
  by_cases h : v < 0 ∨ (is.keys.length : Int) ≤ v
  · rw [if_pos h]
    simp only [Bool.false_eq_true, false_iff]
    rintro ⟨h0, h1, -, -⟩
    rcases h with h | h <;> omega
  · rw [if_neg h]
    push_neg at h
    simp only [decide_eq_true_eq]
    exact ⟨fun ⟨a, b⟩ => ⟨h.1, h.2, a, b⟩, fun ⟨_, _, a, b⟩ => ⟨a, b⟩⟩

theorem contains_eq_false_iff (is : IntSet) (v : Int) :
    is.Contains v = false ↔ ¬ is.Contains v = true := by
  cases h : is.Contains v <;> simp

theorem contains_of_length_zero (is : IntSet) (v : Int) (h : is.length = 0) :
    is.Contains v = false := by
  rw [contains_eq_false_iff, contains_iff]
  rintro ⟨-, -, hslot, -⟩
  omega

theorem contains_nonneg (is : IntSet) (v : Int) (h : is.Contains v = true) : 0 ≤ v :=
  ((contains_iff is v).mp h).1

theorem contains_lt_univ (is : IntSet) (v : Int) (h : is.Contains v = true) :
    v < (is.keys.length : Int) :=
  ((contains_iff is v).mp h).2.1

/-! ### Consequences of the representation invariant -/

theorem inv_inj (is : IntSet) (h : Inv is) (i j : Nat) (hi : i < is.length)
    (hj : j < is.length) (he : is.set.getD i 0 = is.set.getD j 0) : i = j := by
  have hki := h.2.2.2 i hi
  have hkj := h.2.2.2 j hj
  rw [he] at hki
  exact hki.symm.trans hkj

theorem mem_values_iff (is : IntSet) (hls : is.length ≤ is.set.length) (v : Int) :
    v ∈ is.Values ↔ ∃ i, i < is.length ∧ is.set.getD i 0 = v :=
  mem_take_iff is.set is.length 0 hls v

theorem contains_of_mem (is : IntSet) (h : Inv is) (v : Int) (hv : v ∈ is.Values) :
    is.Contains v = true := by
  obtain ⟨i, hi, hiv⟩ := (mem_values_iff is h.2.1 v).mp hv
  obtain ⟨-, -, h3, h4⟩ := h
  obtain ⟨hr0, hr1⟩ := h3 i hi
  rw [contains_iff]
  rw [← hiv]
  exact ⟨hr0, hr1, by rw [h4 i hi]; exact hi, by rw [h4 i hi]⟩

theorem mem_of_contains (is : IntSet) (h : Inv is) (v : Int) (hc : is.Contains v = true) :
    v ∈ is.Values := by
  obtain ⟨-, -, hslot, hsv⟩ := (contains_iff is v).mp hc
  exact (mem_values_iff is h.2.1 v).mpr ⟨is.keys.getD v.toNat 0, hslot, hsv⟩

theorem length_lt_of_not_contains (is : IntSet) (h : Inv is) (v : Int) (h0 : 0 ≤ v)
    (h1 : v < (is.keys.length : Int)) (hc : is.Contains v = false) :
    is.length < is.set.length := by
  by_contra hge
  have heq : is.length = is.set.length := le_antisymm h.2.1 (le_of_not_lt hge)
  have hm : is.length = is.keys.length := by rw [heq, h.1]
  set m := is.keys.length with hmdef
  have hbound : ∀ i : Fin m, (is.set.getD (i : Nat) 0).toNat < m := by
    intro i
    have hi : (i : Nat) < is.length := by omega
    have := h.2.2.1 (i : Nat) hi
    omega
  set f : Fin m → Fin m := fun i => ⟨(is.set.getD (i : Nat) 0).toNat, hbound i⟩ with hf
  have hinj : Function.Injective f := by
    intro i j hij
    have hvals : (is.set.getD (i : Nat) 0).toNat = (is.set.getD (j : Nat) 0).toNat :=
      congrArg Fin.val hij
    have hi : (i : Nat) < is.length := by omega
    have hj : (j : Nat) < is.length := by omega
    have hposi := (h.2.2.1 (i : Nat) hi).1
    have hposj := (h.2.2.1 (j : Nat) hj).1
    have : is.set.getD (i : Nat) 0 = is.set.getD (j : Nat) 0 := by omega
    exact Fin.ext (inv_inj is h (i : Nat) (j : Nat) hi hj this)
  have hsurj : Function.Surjective f := Finite.injective_iff_surjective.mp hinj
  have hvm : v.toNat < m := by omega
  obtain ⟨i, hi⟩ := hsurj ⟨v.toNat, hvm⟩
  have hval : (is.set.getD (i : Nat) 0).toNat = v.toNat := congrArg Fin.val hi
  have hii : (i : Nat) < is.length := by omega
  have hposi := (h.2.2.1 (i : Nat) hii).1
  have hiv : is.set.getD (i : Nat) 0 = v := by omega
  have hmem : v ∈ is.Values := (mem_values_iff is h.2.1 v).mpr ⟨(i : Nat), hii, hiv⟩
  have := contains_of_mem is h v hmem
  rw [hc] at this
  exact Bool.false_ne_true this

/-! ### Preservation of the invariant -/

theorem add_cons (is : IntSet) (u : Int) (rest : List Int) :
    is.Add (u :: rest) = (is.add1 u).Add rest := rfl

theorem add_nil (is : IntSet) : is.Add [] = is := rfl

theorem remove_cons (is : IntSet) (u : Int) (rest : List Int) :
    is.Remove (u :: rest) = if is.length = 0 then is else (is.remove1 u).Remove rest := rfl

theorem remove_nil (is : IntSet) : is.Remove [] = is := rfl

theorem inv_add1 (is : IntSet) (h : Inv is) (v : Int) : Inv (is.add1 v) := by
  unfold IntSet.add1
  split
  case isFalse => exact h
  case isTrue hg =>
  obtain ⟨h0, h1, hcv⟩ := hg
  have hlt : is.length < is.set.length := length_lt_of_not_contains is h v h0 h1 hcv
  have hvk : v.toNat < is.keys.length := by omega
  obtain ⟨i1, i2, i3, i4⟩ := h
  refine ⟨?_, ?_, ?_, ?_⟩
  · simp only [List.length_set]
    exact i1
  · simp only [List.length_set]
    omega
  · intro i hi
    simp only [List.length_set] at hi ⊢
    by_cases hil : i = is.length
    · subst hil
      rw [getD_set_self is.set is.length v 0 hlt]
      exact ⟨h0, h1⟩
    · have hli : i < is.length := by omega
      rw [getD_set_ne is.set is.length i v 0 (fun he => hil he.symm)]
      exact i3 i hli
  · intro i hi
    simp only [List.length_set] at hi ⊢
    by_cases hil : i = is.length
    · subst hil
      rw [getD_set_self is.set is.length v 0 hlt]
      exact getD_set_self is.keys v.toNat is.length 0 hvk
    · have hli : i < is.length := by omega
      rw [getD_set_ne is.set is.length i v 0 (fun he => hil he.symm)]
      have hw := i3 i hli
      have hne : v.toNat ≠ (is.set.getD i 0).toNat := by
        intro he
        have hvw : v = is.set.getD i 0 := by omega
        have hmem : v ∈ is.Values :=
          (mem_values_iff is i2 v).mpr ⟨i, hli, hvw.symm⟩
        have := contains_of_mem is ⟨i1, i2, i3, i4⟩ v hmem
        rw [hcv] at this
        exact Bool.false_ne_true this
      rw [getD_set_ne is.keys v.toNat (is.set.getD i 0).toNat is.length 0 hne]
      exact i4 i hli

theorem inv_add (is : IntSet) (h : Inv is) (vs : List Int) : Inv (is.Add vs) := by
  induction vs generalizing is with
  | nil => exact h
  | cons u rest ih =>
      rw [add_cons]
      exact ih _ (inv_add1 is h u)

theorem remove1_of_not_contains (is : IntSet) (v : Int) (hc : is.Contains v = false) :
    is.remove1 v = is := by
  unfold IntSet.remove1
  rw [hc]
  simp

theorem remove1_of_last (is : IntSet) (v : Int) (hc : is.Contains v = true)
    (hlv : is.set.getD (is.length - 1) 0 = v) :
    is.remove1 v = { is with length := is.length - 1 } := by
  unfold IntSet.remove1
  rw [if_pos hc]
  simp only [hlv, ne_eq, not_true_eq_false, if_false]

theorem remove1_of_swap (is : IntSet) (v : Int) (hc : is.Contains v = true)
    (hlv : is.set.getD (is.length - 1) 0 ≠ v) :
    is.remove1 v =
      { length := is.length - 1
        keys := is.keys.set (is.set.getD (is.length - 1) 0).toNat (is.keys.getD v.toNat 0)
        set := is.set.set (is.keys.getD v.toNat 0) (is.set.getD (is.length - 1) 0) } := by
  unfold IntSet.remove1
  rw [if_pos hc]
  simp only [hlv, ne_eq, not_false_eq_true, if_true]

theorem inv_remove1 (is : IntSet) (h : Inv is) (v : Int) : Inv (is.remove1 v) := by
  by_cases hc : is.Contains v = true
  case neg =>
    rw [remove1_of_not_contains is v (Bool.eq_false_iff.mpr hc)]
    exact h
  case pos =>
  obtain ⟨h0, h1, hslot, hsv⟩ := (contains_iff is v).mp hc
  obtain ⟨i1, i2, i3, i4⟩ := h
  have hn1 : is.length - 1 < is.length := by omega
  have hlast := i3 (is.length - 1) hn1
  have hlastkey := i4 (is.length - 1) hn1
  by_cases hlv : is.set.getD (is.length - 1) 0 = v
  · rw [remove1_of_last is v hc hlv]
    refine ⟨i1, ?_, ?_, ?_⟩
    · dsimp only
      omega
    · intro i hi
      dsimp only at hi ⊢
      exact i3 i (by omega)
    · intro i hi
      dsimp only at hi ⊢
      exact i4 i (by omega)
  · rw [remove1_of_swap is v hc hlv]
    set slot := is.keys.getD v.toNat 0 with hslotdef
    set last := is.set.getD (is.length - 1) 0 with hlastdef
    have hslotne : slot ≠ is.length - 1 := by
      intro he
      rw [he] at hsv
      exact hlv hsv
    have hslotlt : slot < is.length - 1 := by omega
    have hlastk : last.toNat < is.keys.length := by omega
    refine ⟨?_, ?_, ?_, ?_⟩
    · simp only [List.length_set]
      exact i1
    · simp only [List.length_set]
      omega
    · intro i hi
      simp only [List.length_set] at hi ⊢
      by_cases his : i = slot
      · subst his
        rw [getD_set_self is.set slot last 0 (by omega)]
        exact hlast
      · rw [getD_set_ne is.set slot i last 0 (fun he => his he.symm)]
        exact i3 i (by omega)
    · intro i hi
      simp only [List.length_set] at hi ⊢
      by_cases his : i = slot
      · subst his
        rw [getD_set_self is.set slot last 0 (by omega)]
        exact getD_set_self is.keys last.toNat slot 0 hlastk
      · rw [getD_set_ne is.set slot i last 0 (fun he => his he.symm)]
        have hw := i3 i (by omega)
        have hwne : last.toNat ≠ (is.set.getD i 0).toNat := by
          intro he
          have heq : last = is.set.getD i 0 := by omega
          have := inv_inj is ⟨i1, i2, i3, i4⟩ (is.length - 1) i hn1 (by omega) heq
          omega
        rw [getD_set_ne is.keys last.toNat _ slot 0 hwne]
        exact i4 i (by omega)

theorem inv_remove (is : IntSet) (h : Inv is) (vs : List Int) : Inv (is.Remove vs) := by
  induction vs generalizing is with
  | nil => exact h
  | cons u rest ih =>
      rw [remove_cons]
      split
      · exact h
      · exact ih _ (inv_remove1 is h u)

theorem inv_newN (n : Nat) (vs : List Int) : Inv (NewN n vs) := by
  apply inv_add
  refine ⟨by simp, by simp, ?_, ?_⟩
  · intro i hi
    simp at hi
  · intro i hi
    simp at hi

theorem inv_copy (is : IntSet) : Inv is.Copy :=
  inv_newN is.keys.length (is.set.take is.length)

theorem inv_reachable (is : IntSet) (h : Reachable is) : Inv is := by
  induction h with
  | new n vs => exact inv_newN n vs
  | add is vs _ ih => exact inv_add _ ih vs
  | remove is vs _ ih => exact inv_remove _ ih vs
  | unionM is other _ _ ih _ => exact inv_add _ ih _
  | differenceM is other _ _ ih _ => exact inv_remove _ ih _
  | copy is _ _ => exact inv_copy is
  | unionF lhs rhs _ _ _ _ => exact inv_add _ (inv_copy lhs) _
  | differenceF lhs rhs _ _ _ _ => exact inv_remove _ (inv_copy lhs) _

/-! ### Membership after Add -/

theorem add1_of_skip (is : IntSet) (v : Int)
    (hg : ¬(0 ≤ v ∧ v < (is.keys.length : Int) ∧ is.Contains v = false)) :
    is.add1 v = is := by
  unfold IntSet.add1
  rw [if_neg hg]

theorem add1_of_new (is : IntSet) (v : Int)
    (hg : 0 ≤ v ∧ v < (is.keys.length : Int) ∧ is.Contains v = false) :
    is.add1 v =
      { length := is.length + 1
        keys := is.keys.set v.toNat is.length
        set := is.set.set is.length v } := by
  unfold IntSet.add1
  rw [if_pos hg]

theorem keys_length_add1 (is : IntSet) (v : Int) :
    (is.add1 v).keys.length = is.keys.length := by
  unfold IntSet.add1
  split <;> simp

theorem keys_length_add (is : IntSet) (vs : List Int) :
    (is.Add vs).keys.length = is.keys.length := by
  induction vs generalizing is with
  | nil => rfl
  | cons u rest ih =>
      rw [add_cons, ih, keys_length_add1]

theorem contains_add1 (is : IntSet) (h : Inv is) (u v : Int) :
    (is.add1 u).Contains v = true ↔
      is.Contains v = true ∨ (v = u ∧ 0 ≤ u ∧ u < (is.keys.length : Int)) := by
  by_cases hg : 0 ≤ u ∧ u < (is.keys.length : Int) ∧ is.Contains u = false
  case neg =>
    rw [add1_of_skip is u hg]
    constructor
    · exact Or.inl
    · rintro (hv | ⟨rfl, h0, h1⟩)
      · exact hv
      · cases hcv : is.Contains v
        · exact absurd ⟨h0, h1, hcv⟩ hg
        · rfl
  case pos =>
    obtain ⟨h0, h1, hcu⟩ := hg
    have hlt : is.length < is.set.length := length_lt_of_not_contains is h u h0 h1 hcu
    have huk : u.toNat < is.keys.length := by omega
    rw [add1_of_new is u ⟨h0, h1, hcu⟩]
    rw [contains_iff, contains_iff]
    dsimp only
    simp only [List.length_set]
    by_cases hvu : v = u
    · subst hvu
      constructor
      · intro
        right
        exact ⟨rfl, h0, h1⟩
      · intro
        refine ⟨h0, h1, ?_, ?_⟩
        · rw [getD_set_self is.keys v.toNat is.length 0 huk]
          omega
        · rw [getD_set_self is.keys v.toNat is.length 0 huk,
            getD_set_self is.set is.length v 0 hlt]
    · by_cases hb : 0 ≤ v ∧ v < (is.keys.length : Int)
      case neg =>
        constructor
        · rintro ⟨a, b, -, -⟩
          exact absurd ⟨a, b⟩ hb
        · rintro (⟨a, b, -, -⟩ | ⟨rfl, a, b⟩)
          · exact absurd ⟨a, b⟩ hb
          · exact absurd ⟨a, b⟩ hb
      case pos =>
        obtain ⟨hb0, hb1⟩ := hb
        have hne : u.toNat ≠ v.toNat := by omega
        rw [getD_set_ne is.keys u.toNat v.toNat is.length 0 hne]
        set k := is.keys.getD v.toNat 0 with hk
        by_cases hkl : k = is.length
        · rw [hkl, getD_set_self is.set is.length u 0 hlt]
          constructor
          · rintro ⟨-, -, -, he⟩
            exact absurd he.symm hvu
          · rintro (⟨-, -, hlt2, -⟩ | ⟨rfl, -, -⟩)
            · omega
            · exact absurd rfl hvu
        · rw [getD_set_ne is.set is.length k u 0 (fun he => hkl he.symm)]
          constructor
          · rintro ⟨a, b, c, d⟩
            exact Or.inl ⟨a, b, by omega, d⟩
          · rintro (⟨a, b, c, d⟩ | ⟨rfl, -, -⟩)
            · exact ⟨a, b, by omega, d⟩
            · exact absurd rfl hvu

theorem contains_add (is : IntSet) (h : Inv is) (vs : List Int) (v : Int) :
    (is.Add vs).Contains v = true ↔
      is.Contains v = true ∨ (0 ≤ v ∧ v < (is.keys.length : Int) ∧ v ∈ vs) := by
  induction vs generalizing is with
  | nil => simp [add_nil]
  | cons u rest ih =>
      rw [add_cons, ih _ (inv_add1 is h u), contains_add1 is h u v, keys_length_add1]
      simp only [List.mem_cons]
      constructor
      · rintro ((hv | ⟨rfl, a, b⟩) | ⟨a, b, c⟩)
        · exact Or.inl hv
        · exact Or.inr ⟨a, b, Or.inl rfl⟩
        · exact Or.inr ⟨a, b, Or.inr c⟩
      · rintro (hv | ⟨a, b, rfl | c⟩)
        · exact Or.inl (Or.inl hv)
        · exact Or.inl (Or.inr ⟨rfl, a, b⟩)
        · exact Or.inr ⟨a, b, c⟩

/-! ### Membership after Remove -/

theorem contains_remove1 (is : IntSet) (h : Inv is) (u v : Int) :
    (is.remove1 u).Contains v = true ↔ is.Contains v = true ∧ v ≠ u := by
  by_cases hc : is.Contains u = true
  case neg =>
    rw [remove1_of_not_contains is u (Bool.eq_false_iff.mpr hc)]
    constructor
    · intro hv
      exact ⟨hv, fun he => hc (he ▸ hv)⟩
    · exact And.left
  case pos =>
  obtain ⟨h0, h1, hslot, hsv⟩ := (contains_iff is u).mp hc
  obtain ⟨i1, i2, i3, i4⟩ := h
  have hn1 : is.length - 1 < is.length := by omega
  have hlast := i3 (is.length - 1) hn1
  have hlastkey := i4 (is.length - 1) hn1
  by_cases hlu : is.set.getD (is.length - 1) 0 = u
  · rw [remove1_of_last is u hc hlu]
    have hslot_eq : is.keys.getD u.toNat 0 = is.length - 1 :=
      inv_inj is ⟨i1, i2, i3, i4⟩ (is.keys.getD u.toNat 0) (is.length - 1) hslot hn1
        (by rw [hsv, hlu])
    rw [contains_iff, contains_iff]
    dsimp only
    constructor
    · rintro ⟨a, b, c, d⟩
      refine ⟨⟨a, b, by omega, d⟩, ?_⟩
      intro he
      subst he
      omega
    · rintro ⟨⟨a, b, c, d⟩, hne⟩
      refine ⟨a, b, ?_, d⟩
      by_cases hk : is.keys.getD v.toNat 0 = is.length - 1
      · rw [hk] at d
        exact absurd (d.symm.trans hlu) hne
      · omega
  · rw [remove1_of_swap is u hc hlu]
    have hslotne : is.keys.getD u.toNat 0 ≠ is.length - 1 := by
      intro he
      rw [he] at hsv
      exact hlu hsv
    have hslotlt : is.keys.getD u.toNat 0 < is.length - 1 := by omega
    rw [contains_iff, contains_iff]
    dsimp only
    simp only [List.length_set]
    by_cases hb : 0 ≤ v ∧ v < (is.keys.length : Int)
    case neg =>
      constructor
      · rintro ⟨a, b, -, -⟩
        exact absurd ⟨a, b⟩ hb
      · rintro ⟨⟨a, b, -, -⟩, -⟩
        exact absurd ⟨a, b⟩ hb
    case pos =>
    obtain ⟨hb0, hb1⟩ := hb
    by_cases hvu : v = u
    · subst hvu
      rw [getD_set_ne is.keys (is.set.getD (is.length - 1) 0).toNat v.toNat
        (is.keys.getD v.toNat 0) 0 (by omega)]
      rw [getD_set_self is.set (is.keys.getD v.toNat 0) (is.set.getD (is.length - 1) 0) 0
        (by omega)]
      constructor
      · rintro ⟨-, -, -, he⟩
        exact absurd he hlu
      · rintro ⟨-, hne⟩
        exact absurd rfl hne
    · by_cases hvl : v = is.set.getD (is.length - 1) 0
      · subst hvl
        rw [getD_set_self is.keys (is.set.getD (is.length - 1) 0).toNat
          (is.keys.getD u.toNat 0) 0 (by omega)]
        rw [getD_set_self is.set (is.keys.getD u.toNat 0) (is.set.getD (is.length - 1) 0) 0
          (by omega)]
        constructor
        · intro
          refine ⟨⟨hb0, hb1, ?_, ?_⟩, fun he => hlu he⟩
          · rw [hlastkey]
            omega
          · rw [hlastkey]
        · intro
          exact ⟨hb0, hb1, hslotlt, rfl⟩
      · rw [getD_set_ne is.keys (is.set.getD (is.length - 1) 0).toNat v.toNat
          (is.keys.getD u.toNat 0) 0 (by omega)]
        by_cases hks : is.keys.getD v.toNat 0 = is.keys.getD u.toNat 0
        · rw [hks, getD_set_self is.set (is.keys.getD u.toNat 0) (is.set.getD (is.length - 1) 0)
            0 (by omega)]
          constructor
          · rintro ⟨-, -, -, he⟩
            exact absurd he.symm hvl
          · rintro ⟨⟨-, -, -, d⟩, -⟩
            exact absurd (hsv.symm.trans d).symm hvu
        · rw [getD_set_ne is.set (is.keys.getD u.toNat 0) (is.keys.getD v.toNat 0)
            (is.set.getD (is.length - 1) 0) 0 (fun he => hks he.symm)]
          constructor
          · rintro ⟨a, b, c, d⟩
            exact ⟨⟨a, b, by omega, d⟩, hvu⟩
          · rintro ⟨⟨a, b, c, d⟩, -⟩
            by_cases hkn : is.keys.getD v.toNat 0 = is.length - 1
            · rw [hkn] at d
              exact absurd d.symm hvl
            · exact ⟨a, b, by omega, d⟩

theorem contains_remove (is : IntSet) (h : Inv is) (vs : List Int) (v : Int) :
    (is.Remove vs).Contains v = true ↔ is.Contains v = true ∧ v ∉ vs := by
  induction vs generalizing is with
  | nil => simp [remove_nil]
  | cons u rest ih =>
      rw [remove_cons]
      split
      case isTrue hz =>
        rw [contains_of_length_zero is v hz]
        simp
      case isFalse hz =>
        rw [ih _ (inv_remove1 is h u), contains_remove1 is h u v]
        simp only [List.mem_cons]
        constructor
        · rintro ⟨⟨hv, hne⟩, hnr⟩
          exact ⟨hv, fun hm => hm.elim hne hnr⟩
        · rintro ⟨hv, hnm⟩
          exact ⟨⟨hv, fun he => hnm (Or.inl he)⟩, fun hm => hnm (Or.inr hm)⟩

/-! ### Membership through New and Copy -/

theorem inv_zeroState (n : Nat) :
    Inv { length := 0, keys := List.replicate n 0, set := List.replicate n 0 } := by
  refine ⟨by simp, by simp, ?_, ?_⟩
  · intro i hi
    simp at hi
  · intro i hi
    simp at hi

theorem contains_newN (n : Nat) (vs : List Int) (v : Int) :
    (NewN n vs).Contains v = true ↔ 0 ≤ v ∧ v < (n : Int) ∧ v ∈ vs := by
  unfold NewN
  rw [contains_add _ (inv_zeroState n) vs v]
  rw [contains_of_length_zero _ v rfl]
  simp

theorem univ_newN (n : Nat) (vs : List Int) : (NewN n vs).keys.length = n := by
  unfold NewN
  rw [keys_length_add]
  simp

theorem univ_copy (is : IntSet) : is.Copy.keys.length = is.keys.length :=
  univ_newN is.keys.length (is.set.take is.length)

theorem contains_copy (is : IntSet) (h : Inv is) (v : Int) :
    (is.Copy.Contains v = true) ↔ is.Contains v = true := by
  unfold IntSet.Copy
  rw [contains_newN]
  constructor
  · rintro ⟨-, -, hm⟩
    exact contains_of_mem is h v hm
  · intro hc
    obtain ⟨h0, h1, -, -⟩ := (contains_iff is v).mp hc
    exact ⟨h0, h1, mem_of_contains is h v hc⟩

/-! ### Length bookkeeping -/

theorem length_remove1_of_contains (is : IntSet) (v : Int) (hc : is.Contains v = true) :
    (is.remove1 v).length = is.length - 1 := by
  by_cases hlv : is.set.getD (is.length - 1) 0 = v
  · rw [remove1_of_last is v hc hlv]
  · rw [remove1_of_swap is v hc hlv]

theorem set_length_remove1 (is : IntSet) (v : Int) :
    (is.remove1 v).set.length = is.set.length := by
  by_cases hc : is.Contains v = true
  · by_cases hlv : is.set.getD (is.length - 1) 0 = v
    · rw [remove1_of_last is v hc hlv]
    · rw [remove1_of_swap is v hc hlv]
      simp [List.length_set]
  · rw [remove1_of_not_contains is v (Bool.eq_false_iff.mpr hc)]

theorem hls_remove1 (is : IntSet) (v : Int) (hls : is.length ≤ is.set.length) :
    (is.remove1 v).length ≤ (is.remove1 v).set.length := by
  rw [set_length_remove1]
  by_cases hc : is.Contains v = true
  · rw [length_remove1_of_contains is v hc]
    omega
  · rw [remove1_of_not_contains is v (Bool.eq_false_iff.mpr hc)]
    exact hls

/-! ### Agreement and divergence of the second variant -/

theorem contains2_neg (is : IntSet) (v : Int) (h0 : v < 0) : is.Contains2 v = none := by
  unfold IntSet.Contains2
  rw [if_pos (by omega : v < (is.keys.length : Int)), if_pos h0]

theorem contains2_nonneg (is : IntSet) (v : Int) (hls : is.length ≤ is.set.length)
    (h0 : 0 ≤ v) : is.Contains2 v = some (is.Contains v) := by
  unfold IntSet.Contains2 IntSet.Contains
  by_cases h1 : v < (is.keys.length : Int)
  · rw [if_pos h1, if_neg (by omega : ¬ v < 0), if_neg (by omega :
      ¬(v < 0 ∨ (is.keys.length : Int) ≤ v))]
    by_cases hs : is.keys.getD v.toNat 0 < is.length
    · rw [if_pos hs]
      have hsl : is.keys.getD v.toNat 0 < is.set.length := by omega
      rw [List.get?_eq_getElem?, List.getElem?_eq_getElem hsl]
      show some _ = some _
      congr 1
      rw [decide_eq_decide, List.getD_eq_getElem is.set 0 hsl]
      exact ⟨fun he => ⟨hs, he⟩, And.right⟩
    · rw [if_neg hs]
      show some false = some _
      congr 1
      exact (decide_eq_false fun hp => hs hp.1).symm
  · rw [if_neg h1, if_pos (Or.inr (by omega))]

theorem remove2_eq (is : IntSet) (v : Int) (hls : is.length ≤ is.set.length) (h0 : 0 ≤ v) :
    is.remove2 v = some (is.remove1 v) := by
  unfold IntSet.remove2
  rw [contains2_nonneg is v hls h0]
  cases hc : is.Contains v
  · rw [remove1_of_not_contains is v hc]
  · obtain ⟨hc0, hc1, hslot, hsv⟩ := (contains_iff is v).mp hc
    by_cases hlv : is.set.getD (is.length - 1) 0 = v
    · rw [remove1_of_last is v hc hlv]
      have hs1 : is.set.set (is.keys.getD v.toNat 0) v = is.set := by
        have hself := set_getD_eq_self is.set (is.keys.getD v.toNat 0) 0 (by omega)
        rw [hsv] at hself
        exact hself
      have hk1 : is.keys.set v.toNat (is.keys.getD v.toNat 0) = is.keys :=
        set_getD_eq_self is.keys v.toNat 0 (by omega)
      show some _ = some _
      rw [hlv, hs1, hk1]
    · rw [remove1_of_swap is v hc hlv]

theorem remove2_cons (is : IntSet) (u : Int) (rest : List Int) :
    is.Remove2 (u :: rest) =
      match is.remove2 u with
      | none => none
      | some is1 => is1.Remove2 rest := rfl

theorem remove2_of_length_zero (is : IntSet) (vs : List Int) (hz : is.length = 0)
    (hls : is.length ≤ is.set.length) (hvs : ∀ v ∈ vs, 0 ≤ v) :
    is.Remove2 vs = some is := by
  induction vs with
  | nil => rfl
  | cons u rest ih =>
      rw [remove2_cons]
      have h2 : is.remove2 u = some is := by
        rw [remove2_eq is u hls (hvs u (List.mem_cons_self u rest)),
          remove1_of_not_contains is u (contains_of_length_zero is u hz)]
      rw [h2]
      exact ih fun v hv => hvs v (List.mem_cons_of_mem u hv)

theorem removeTwo_eq (is : IntSet) (vs : List Int) (hls : is.length ≤ is.set.length)
    (hvs : ∀ v ∈ vs, 0 ≤ v) : is.Remove2 vs = some (is.Remove vs) := by
  induction vs generalizing is with
  | nil => rfl
  | cons u rest ih =>
      rw [remove2_cons, remove_cons]
      by_cases hz : is.length = 0
      · rw [if_pos hz]
        have h2 : is.remove2 u = some is := by
          rw [remove2_eq is u hls (hvs u (List.mem_cons_self u rest)),
            remove1_of_not_contains is u (contains_of_length_zero is u hz)]
        rw [h2]
        exact remove2_of_length_zero is rest hz hls fun v hv => hvs v (List.mem_cons_of_mem u hv)
      · rw [if_neg hz, remove2_eq is u hls (hvs u (List.mem_cons_self u rest))]
        exact ih (is.remove1 u) (hls_remove1 is u hls) fun v hv =>
          hvs v (List.mem_cons_of_mem u hv)

/-! ### Frame lemmas for the heap model -/

theorem hget_hwrite_ne (h : Heap) (r r' : Nat) (a : List Int) (hne : r ≠ r') :
    hget (hwrite h r' a) r = hget h r := by
  unfold hget hwrite
  rw [List.getD_eq_getElem?_getD, List.getElem?_set_ne (fun he => hne he.symm),
    ← List.getD_eq_getElem?_getD]

theorem hget_append (h : Heap) (a : List Int) (r : Nat) (hr : r < h.length) :
    hget (h ++ [a]) r = hget h r := by
  unfold hget
  rw [List.getD_eq_getElem?_getD, List.getElem?_append_left hr, ← List.getD_eq_getElem?_getD]

theorem hadd1_refs (h : Heap) (is : HSet) (v : Int) :
    (HAdd1 h is v).2.keysRef = is.keysRef ∧ (HAdd1 h is v).2.setRef = is.setRef := by
  unfold HAdd1
  split <;> exact ⟨rfl, rfl⟩

theorem hadd1_frame (h : Heap) (is : HSet) (v : Int) (r : Nat) (h1 : r ≠ is.keysRef)
    (h2 : r ≠ is.setRef) : hget (HAdd1 h is v).1 r = hget h r := by
  unfold HAdd1
  split
  · dsimp only
    rw [hget_hwrite_ne _ r is.setRef _ h2, hget_hwrite_ne _ r is.keysRef _ h1]
  · rfl

theorem haddList_refs (h : Heap) (is : HSet) (vs : List Int) :
    (HAddList h is vs).2.keysRef = is.keysRef ∧ (HAddList h is vs).2.setRef = is.setRef := by
  induction vs generalizing h is with
  | nil => exact ⟨rfl, rfl⟩
  | cons u rest ih =>
      refine ⟨?_, ?_⟩
      · rw [show HAddList h is (u :: rest) = HAddList (HAdd1 h is u).1 (HAdd1 h is u).2 rest
          from rfl]
        rw [(ih (HAdd1 h is u).1 (HAdd1 h is u).2).1, (hadd1_refs h is u).1]
      · rw [show HAddList h is (u :: rest) = HAddList (HAdd1 h is u).1 (HAdd1 h is u).2 rest
          from rfl]
        rw [(ih (HAdd1 h is u).1 (HAdd1 h is u).2).2, (hadd1_refs h is u).2]

theorem haddList_frame (h : Heap) (is : HSet) (vs : List Int) (r : Nat)
    (h1 : r ≠ is.keysRef) (h2 : r ≠ is.setRef) :
    hget (HAddList h is vs).1 r = hget h r := by
  induction vs generalizing h is with
  | nil => rfl
  | cons u rest ih =>
      rw [show HAddList h is (u :: rest) = HAddList (HAdd1 h is u).1 (HAdd1 h is u).2 rest
        from rfl]
      rw [ih (HAdd1 h is u).1 (HAdd1 h is u).2 (by rw [(hadd1_refs h is u).1]; exact h1)
        (by rw [(hadd1_refs h is u).2]; exact h2)]
      exact hadd1_frame h is u r h1 h2

theorem hremove1_refs (h : Heap) (is : HSet) (v : Int) :
    (HRemove1 h is v).2.keysRef = is.keysRef ∧ (HRemove1 h is v).2.setRef = is.setRef := by
  unfold HRemove1
  split
  · dsimp only
    split <;> exact ⟨rfl, rfl⟩
  · exact ⟨rfl, rfl⟩

theorem hremove1_frame (h : Heap) (is : HSet) (v : Int) (r : Nat) (h1 : r ≠ is.keysRef)
    (h2 : r ≠ is.setRef) : hget (HRemove1 h is v).1 r = hget h r := by
  unfold HRemove1
  split
  · dsimp only
    split
    · dsimp only
      rw [hget_hwrite_ne _ r is.keysRef _ h1, hget_hwrite_ne _ r is.setRef _ h2]
    · rfl
  · rfl

theorem hremoveList_refs (h : Heap) (is : HSet) (vs : List Int) :
    (HRemoveList h is vs).2.keysRef = is.keysRef ∧
      (HRemoveList h is vs).2.setRef = is.setRef := by
  induction vs generalizing h is with
  | nil => exact ⟨rfl, rfl⟩
  | cons u rest ih =>
      rw [show HRemoveList h is (u :: rest) = if is.length = 0 then (h, is)
        else HRemoveList (HRemove1 h is u).1 (HRemove1 h is u).2 rest from rfl]
      split
      · exact ⟨rfl, rfl⟩
      · refine ⟨?_, ?_⟩
        · rw [(ih (HRemove1 h is u).1 (HRemove1 h is u).2).1, (hremove1_refs h is u).1]
        · rw [(ih (HRemove1 h is u).1 (HRemove1 h is u).2).2, (hremove1_refs h is u).2]

theorem hremoveList_frame (h : Heap) (is : HSet) (vs : List Int) (r : Nat)
    (h1 : r ≠ is.keysRef) (h2 : r ≠ is.setRef) :
    hget (HRemoveList h is vs).1 r = hget h r := by
  induction vs generalizing h is with
  | nil => rfl
  | cons u rest ih =>
      rw [show HRemoveList h is (u :: rest) = if is.length = 0 then (h, is)
        else HRemoveList (HRemove1 h is u).1 (HRemove1 h is u).2 rest from rfl]
      split
      · rfl
      · rw [ih (HRemove1 h is u).1 (HRemove1 h is u).2
          (by rw [(hremove1_refs h is u).1]; exact h1)
          (by rw [(hremove1_refs h is u).2]; exact h2)]
        exact hremove1_frame h is u r h1 h2

theorem hnew_refs (h : Heap) (n : Nat) (vs : List Int) :
    (HNew h n vs).2.keysRef = h.length ∧ (HNew h n vs).2.setRef = h.length + 1 := by
  unfold HNew halloc
  dsimp only
  constructor
  · rw [(haddList_refs _ _ vs).1]
  · rw [(haddList_refs _ _ vs).2]
    dsimp only
    simp

theorem hnew_frame (h : Heap) (n : Nat) (vs : List Int) (r : Nat) (hr : r < h.length) :
    hget (HNew h n vs).1 r = hget h r := by
  unfold HNew halloc
  dsimp only
  rw [haddList_frame _ _ vs r (by dsimp only; omega) (by dsimp only; simp; omega)]
  rw [hget_append _ _ r (by simp; omega), hget_append _ _ r hr]

theorem hcontains_congr (h h' : Heap) (is : HSet)
    (hk : hget h' is.keysRef = hget h is.keysRef)
    (hs : hget h' is.setRef = hget h is.setRef) (v : Int) :
    HContains h' is v = HContains h is v := by
  unfold HContains
  rw [hk, hs]

theorem hunion_frame (h : Heap) (lhs rhs : HSet) (r : Nat) (hr : r < h.length) :
    hget (HUnion h lhs rhs).1 r = hget h r := by
  unfold HUnion HUnionM HCopy
  dsimp only
  rw [haddList_frame _ _ _ r (by rw [(hnew_refs h _ _).1]; omega)
    (by rw [(hnew_refs h _ _).2]; omega)]
  exact hnew_frame h _ _ r hr

theorem hdifference_frame (h : Heap) (lhs rhs : HSet) (r : Nat) (hr : r < h.length) :
    hget (HDifference h lhs rhs).1 r = hget h r := by
  unfold HDifference HDifferenceM HCopy
  dsimp only
  rw [hremoveList_frame _ _ _ r (by rw [(hnew_refs h _ _).1]; omega)
    (by rw [(hnew_refs h _ _).2]; omega)]
  exact hnew_frame h _ _ r hr

/-! ### Remaining bookkeeping helpers -/

theorem keys_length_remove1 (is : IntSet) (v : Int) :
    (is.remove1 v).keys.length = is.keys.length := by
  by_cases hc : is.Contains v = true
  · by_cases hlv : is.set.getD (is.length - 1) 0 = v
    · rw [remove1_of_last is v hc hlv]
    · rw [remove1_of_swap is v hc hlv]
      simp [List.length_set]
  · rw [remove1_of_not_contains is v (Bool.eq_false_iff.mpr hc)]

theorem keys_length_remove (is : IntSet) (vs : List Int) :
    (is.Remove vs).keys.length = is.keys.length := by
  induction vs generalizing is with
  | nil => rfl
  | cons u rest ih =>
      rw [remove_cons]
      split
      · rfl
      · rw [ih, keys_length_remove1]

theorem bool_eq_of_iff {a b : Bool} (h : a = true ↔ b = true) : a = b := by
  cases a <;> cases b <;> simp_all

/-! ### The claims -/

/-- Claim C1: every IntSet reachable from New by Add, Remove, Union and
Difference satisfies the representation invariant (the two slices share the
universe size as length, the count is bounded by it, the dense prefix holds
pairwise distinct in-universe values, and the sparse slice maps each member
back to its slot), and a value belongs to the dense prefix exactly when it
is in the universe, its recorded slot is below the count, and the dense
slice at that slot holds the value. -/
theorem C1_reachable_invariant (is : IntSet) (h : Reachable is) :
    Inv is ∧
    is.Length ≤ is.UniverseSize ∧
    (∀ i j, i < is.length → j < is.length → is.set.getD i 0 = is.set.getD j 0 → i = j) ∧
    (∀ v : Int, v ∈ is.Values ↔
      0 ≤ v ∧ v < (is.UniverseSize : Int) ∧ is.keys.getD v.toNat 0 < is.length ∧
        is.set.getD (is.keys.getD v.toNat 0) 0 = v) := by
  have hinv := inv_reachable is h
  refine ⟨hinv, ?_, inv_inj is hinv, ?_⟩
  · have h1 := hinv.1
    have h2 := hinv.2.1
    unfold IntSet.Length IntSet.UniverseSize
    omega
  · intro v
    constructor
    · intro hm
      exact (contains_iff is v).mp (contains_of_mem is hinv v hm)
    · intro hx
      exact mem_of_contains is hinv v ((contains_iff is v).mpr hx)

/-- Witness for C1 at a concrete reachable set. -/
theorem C1_reachable_invariant_witness :
    Inv (NewN 5 [1, 2, 4]) ∧ (NewN 5 [1, 2, 4]).Length ≤ (NewN 5 [1, 2, 4]).UniverseSize :=
  ⟨(C1_reachable_invariant _ (Reachable.new 5 [1, 2, 4])).1,
    (C1_reachable_invariant _ (Reachable.new 5 [1, 2, 4])).2.1⟩

/-- Claim C2 counterexample: the claim asserts that Contains returns false for
a negative value and never fails for both source variants, but the second
variant indexes the sparse slice at the negative value and panics (modelled
as none), while the first variant indeed returns false. -/
theorem C2_counterexample :
    (NewN 2 []).Contains2 (-1) = none ∧ (NewN 2 []).Contains (-1) = false := by
  decide

/-- Claim C2 amended: the first variant's Contains returns false outside the
universe and otherwise reports the recorded slot check, with no side effect
and no failure; the second variant agrees with it for every non-negative
value but panics on every negative value. -/
theorem C2_contains_spec (is : IntSet) (v : Int) (hls : is.length ≤ is.set.length) :
    ((v < 0 ∨ (is.UniverseSize : Int) ≤ v) → is.Contains v = false) ∧
    (0 ≤ v → v < (is.UniverseSize : Int) →
      is.Contains v =
        decide (is.keys.getD v.toNat 0 < is.length ∧
          is.set.getD (is.keys.getD v.toNat 0) 0 = v)) ∧
    (0 ≤ v → is.Contains2 v = some (is.Contains v)) ∧
    (v < 0 → is.Contains2 v = none) := by
  refine ⟨?_, ?_, fun h0 => contains2_nonneg is v hls h0, fun h0 => contains2_neg is v h0⟩
  · intro hout
    unfold IntSet.UniverseSize at hout
    unfold IntSet.Contains
    rw [if_pos hout]
  · intro h0 h1
    unfold IntSet.UniverseSize at h1
    unfold IntSet.Contains
    rw [if_neg (by omega : ¬(v < 0 ∨ (is.keys.length : Int) ≤ v))]

/-- Witness for C2 at a concrete set and value. -/
theorem C2_contains_spec_witness :
    (NewN 2 [1]).Contains2 1 = some ((NewN 2 [1]).Contains 1) :=
  (C2_contains_spec (NewN 2 [1]) 1 (by decide)).2.2.1 (by decide)

/-- Claim C3 counterexample: the two variants are not functionally identical;
on a negative Contains argument the first returns false while the second
panics (none). -/
theorem C3_counterexample :
    (NewN 1 [0]).Contains2 (-5) = none ∧ (NewN 1 [0]).Contains (-5) = false := by
  decide

/-- Claim C3 amended: the two variants agree on every operation whenever the
queried or removed values are non-negative (and Add, New, Copy, Values,
Length, Empty, Union, String and Choose are textually identical between the
variants, embedded here once); they diverge exactly on negative arguments to
Contains and Remove (and Difference built on Remove), where the second
variant panics. -/
theorem C3_variants_agree :
    (∀ is : IntSet, ∀ v : Int, is.length ≤ is.set.length → 0 ≤ v →
      is.Contains2 v = some (is.Contains v)) ∧
    (∀ is : IntSet, ∀ vs : List Int, is.length ≤ is.set.length → (∀ v ∈ vs, 0 ≤ v) →
      is.Remove2 vs = some (is.Remove vs)) ∧
    (∀ lhs rhs : IntSet, Inv lhs → Inv rhs →
      Difference2F lhs rhs = some (Difference lhs rhs)) ∧
    (∀ is : IntSet, ∀ v : Int, v < 0 → is.Contains2 v = none) := by
  refine ⟨fun is v hls h0 => contains2_nonneg is v hls h0,
    fun is vs hls hvs => removeTwo_eq is vs hls hvs, ?_,
    fun is v h0 => contains2_neg is v h0⟩
  intro lhs rhs hl hr
  unfold Difference2F Difference IntSet.Difference2 IntSet.Difference
  apply removeTwo_eq
  · exact (inv_copy lhs).2.1
  · intro v hv
    obtain ⟨i, hi, hiv⟩ := (mem_values_iff rhs hr.2.1 v).mp hv
    have := hr.2.2.1 i hi
    omega

/-- Witness for C3 at a concrete set and removal list. -/
theorem C3_variants_agree_witness :
    (NewN 2 [0, 1]).Remove2 [1, 0] = some ((NewN 2 [0, 1]).Remove [1, 0]) :=
  C3_variants_agree.2.1 (NewN 2 [0, 1]) [1, 0] (by decide) (by decide)

/-- Claim C4: adding an in-universe value makes it a member, and a second
identical Add leaves the state (hence the length and the whole membership)
exactly as after the first. -/
theorem C4_add_idempotent (is : IntSet) (v : Int) (hinv : Inv is) (h0 : 0 ≤ v)
    (h1 : v < (is.UniverseSize : Int)) :
    (is.Add [v]).Contains v = true ∧
    (is.Add [v]).Add [v] = is.Add [v] ∧
    ((is.Add [v]).Add [v]).Length = (is.Add [v]).Length ∧
    (∀ w : Int, ((is.Add [v]).Add [v]).Contains w = (is.Add [v]).Contains w) := by
  unfold IntSet.UniverseSize at h1
  have hc : (is.add1 v).Contains v = true := by
    rw [contains_add1 is hinv v v]
    exact Or.inr ⟨rfl, h0, h1⟩
  have hidem : (is.Add [v]).Add [v] = is.Add [v] := by
    show (is.add1 v).add1 v = is.add1 v
    apply add1_of_skip
    rintro ⟨-, -, hcf⟩
    rw [hc] at hcf
    simp at hcf
  exact ⟨hc, hidem, by rw [hidem], fun w => by rw [hidem]⟩

/-- Witness for C4 at a concrete set and value. -/
theorem C4_add_idempotent_witness : ((NewN 5 [1, 2, 4]).Add [3]).Contains 3 = true :=
  (C4_add_idempotent (NewN 5 [1, 2, 4]) 3 (by decide) (by decide) (by decide)).1

/-- Claim C5: adding a value outside the universe (negative included) leaves
the state untouched: the whole record, hence the length and the membership
of every value, is unchanged, with no error reported. -/
theorem C5_add_out_of_universe (is : IntSet) (v : Int)
    (h : v < 0 ∨ (is.UniverseSize : Int) ≤ v) :
    is.Add [v] = is ∧ (is.Add [v]).Length = is.Length ∧
    (∀ w : Int, (is.Add [v]).Contains w = is.Contains w) := by
  unfold IntSet.UniverseSize at h
  have heq : is.Add [v] = is := by
    show is.add1 v = is
    apply add1_of_skip
    rintro ⟨h0, h1, -⟩
    rcases h with h | h <;> omega
  exact ⟨heq, by rw [heq], fun w => by rw [heq]⟩

/-- Witness for C5 at a concrete set and out-of-universe value. -/
theorem C5_add_out_of_universe_witness : (NewN 3 [0]).Add [5] = NewN 3 [0] :=
  (C5_add_out_of_universe (NewN 3 [0]) 5 (by decide)).1

/-- Claim C6 counterexample: the claim covers both variants and negative
values, but the second variant's Remove panics (none) on a negative value,
where the first variant treats it as a no-op. -/
theorem C6_counterexample :
    (NewN 1 [0]).Remove2 [-1] = none ∧ (NewN 1 [0]).Remove [-1] = NewN 1 [0] := by
  decide

/-- Claim C6 amended: for the first variant, removing any value makes
Contains of it false, removing a non-member is a no-op, and removing a
member shrinks the length by exactly one and preserves every other member;
the second variant behaves identically for non-negative values and panics
for negative ones. -/
theorem C6_remove_spec (is : IntSet) (v : Int) (hinv : Inv is) :
    ((is.Remove [v]).Contains v = false) ∧
    (is.Contains v = false → is.Remove [v] = is) ∧
    (is.Contains v = true → (is.Remove [v]).Length + 1 = is.Length ∧
      ∀ w : Int, w ≠ v → (is.Remove [v]).Contains w = is.Contains w) ∧
    (0 ≤ v → is.Remove2 [v] = some (is.Remove [v])) ∧
    (v < 0 → is.Remove2 [v] = none) := by
  have hrem : is.Remove [v] = if is.length = 0 then is else is.remove1 v := rfl
  refine ⟨?_, ?_, ?_, ?_, ?_⟩
  · by_cases hz : is.length = 0
    · rw [hrem, if_pos hz]
      exact contains_of_length_zero is v hz
    · rw [hrem, if_neg hz, contains_eq_false_iff, contains_remove1 is hinv v v]
      rintro ⟨-, hne⟩
      exact hne rfl
  · intro hcf
    by_cases hz : is.length = 0
    · rw [hrem, if_pos hz]
    · rw [hrem, if_neg hz]
      exact remove1_of_not_contains is v hcf
  · intro hct
    have hz : ¬ is.length = 0 := by
      have := ((contains_iff is v).mp hct).2.2.1
      omega
    constructor
    · rw [hrem, if_neg hz]
      unfold IntSet.Length
      rw [length_remove1_of_contains is v hct]
      have := ((contains_iff is v).mp hct).2.2.1
      omega
    · intro w hw
      rw [hrem, if_neg hz]
      apply bool_eq_of_iff
      rw [contains_remove1 is hinv v w]
      exact ⟨And.left, fun hcw => ⟨hcw, hw⟩⟩
  · intro h0
    apply removeTwo_eq is [v] hinv.2.1
    intro x hx
    rw [List.mem_singleton] at hx
    subst hx
    exact h0
  · intro h0
    rw [remove2_cons]
    have hnone : is.remove2 v = none := by
      unfold IntSet.remove2
      rw [contains2_neg is v h0]
    rw [hnone]

/-- Witness for C6 at a concrete set and member. -/
theorem C6_remove_spec_witness : ((NewN 5 [1, 2, 4]).Remove [2]).Contains 2 = false :=
  (C6_remove_spec (NewN 5 [1, 2, 4]) 2 (by decide)).1

/-- Claim C7: the two-argument Union keeps the left universe size and holds a
value below that size exactly when either input holds it; the two-argument
Difference holds a value exactly when the left input holds it and the right
does not, for every value, whatever the two universe sizes are. -/
theorem C7_union_difference (A B : IntSet) (hA : Inv A) (hB : Inv B) :
    (Union A B).UniverseSize = A.UniverseSize ∧
    (Difference A B).UniverseSize = A.UniverseSize ∧
    (∀ v : Int, v < (A.UniverseSize : Int) →
      (Union A B).Contains v = (A.Contains v || B.Contains v)) ∧
    (∀ v : Int, (Difference A B).Contains v = (A.Contains v && !(B.Contains v))) := by
  refine ⟨?_, ?_, ?_, ?_⟩
  · unfold Union IntSet.Union IntSet.UniverseSize
    rw [keys_length_add, univ_copy]
  · unfold Difference IntSet.Difference IntSet.UniverseSize
    rw [keys_length_remove, univ_copy]
  · intro v hv
    unfold IntSet.UniverseSize at hv
    apply bool_eq_of_iff
    rw [Bool.or_eq_true]
    unfold Union IntSet.Union
    rw [contains_add _ (inv_copy A) _ v, contains_copy A hA v, univ_copy]
    constructor
    · rintro (h | ⟨-, -, hm⟩)
      · exact Or.inl h
      · exact Or.inr (contains_of_mem B hB v hm)
    · rintro (h | h)
      · exact Or.inl h
      · obtain ⟨b0, -, -, -⟩ := (contains_iff B v).mp h
        exact Or.inr ⟨b0, hv, mem_of_contains B hB v h⟩
  · intro v
    apply bool_eq_of_iff
    rw [Bool.and_eq_true, Bool.not_eq_true']
    unfold Difference IntSet.Difference
    rw [contains_remove _ (inv_copy A) _ v, contains_copy A hA v]
    constructor
    · rintro ⟨hcA, hnm⟩
      refine ⟨hcA, ?_⟩
      cases hcb : B.Contains v
      · rfl
      · exact absurd (mem_of_contains B hB v hcb) hnm
    · rintro ⟨hcA, hcbf⟩
      refine ⟨hcA, fun hm => ?_⟩
      have := contains_of_mem B hB v hm
      rw [hcbf] at this
      exact Bool.false_ne_true this

/-- Witness for C7 at concrete sets of different universe sizes. -/
theorem C7_union_difference_witness :
    (Union (NewN 3 [0, 1]) (NewN 5 [1, 2, 4])).Contains 2 =
      ((NewN 3 [0, 1]).Contains 2 || (NewN 5 [1, 2, 4]).Contains 2) :=
  (C7_union_difference (NewN 3 [0, 1]) (NewN 5 [1, 2, 4]) (by decide) (by decide)).2.2.1 2
    (by decide)

/-- Claim C8: in the heap model, the two-argument Union and Difference leave
the arrays of both inputs untouched, so the membership and the universe size
of both inputs are identical before and after the call; this rests on Copy
allocating fresh references, toward which every later write is directed. -/
theorem C8_free_functions_nondestructive (h : Heap) (A B : HSet)
    (hA1 : A.keysRef < h.length) (hA2 : A.setRef < h.length)
    (hB1 : B.keysRef < h.length) (hB2 : B.setRef < h.length) :
    (∀ v : Int, HContains (HUnion h A B).1 A v = HContains h A v) ∧
    (∀ v : Int, HContains (HUnion h A B).1 B v = HContains h B v) ∧
    (∀ v : Int, HContains (HDifference h A B).1 A v = HContains h A v) ∧
    (∀ v : Int, HContains (HDifference h A B).1 B v = HContains h B v) ∧
    hget (HUnion h A B).1 A.keysRef = hget h A.keysRef ∧
    hget (HUnion h A B).1 B.keysRef = hget h B.keysRef ∧
    hget (HDifference h A B).1 A.keysRef = hget h A.keysRef ∧
    hget (HDifference h A B).1 B.keysRef = hget h B.keysRef := by
  refine ⟨fun v => hcontains_congr h _ A (hunion_frame h A B _ hA1)
      (hunion_frame h A B _ hA2) v,
    fun v => hcontains_congr h _ B (hunion_frame h A B _ hB1)
      (hunion_frame h A B _ hB2) v,
    fun v => hcontains_congr h _ A (hdifference_frame h A B _ hA1)
      (hdifference_frame h A B _ hA2) v,
    fun v => hcontains_congr h _ B (hdifference_frame h A B _ hB1)
      (hdifference_frame h A B _ hB2) v,
    hunion_frame h A B _ hA1, hunion_frame h A B _ hB1,
    hdifference_frame h A B _ hA1, hdifference_frame h A B _ hB1⟩

/-- Witness for C8 at a concrete heap and sets. -/
theorem C8_free_functions_nondestructive_witness :
    HContains (HUnion [[0], [0], [0], [0]] ⟨0, 0, 1⟩ ⟨0, 2, 3⟩).1 ⟨0, 0, 1⟩ 0 =
      HContains [[0], [0], [0], [0]] ⟨0, 0, 1⟩ 0 :=
  (C8_free_functions_nondestructive [[0], [0], [0], [0]] ⟨0, 0, 1⟩ ⟨0, 2, 3⟩
    (by decide) (by decide) (by decide) (by decide)).1 0

/-- Claim C9: Choose on an empty set answers 0 with no error whatever the
random source does; on a non-empty set it propagates a failing source as the
only error, and on a successful draw below the count it answers the member
stored at the drawn slot, which is currently present in the set; the
receiver is read, never written. -/
theorem C9_choose (is : IntSet) (hinv : Inv is) :
    (is.Empty = true → ∀ r : Except Unit Nat, is.Choose r = Except.ok 0) ∧
    (is.Empty = false → ∀ e : Unit, is.Choose (Except.error e) = Except.error e) ∧
    (is.Empty = false → ∀ ip : Nat, ip < is.Length →
      is.Choose (Except.ok ip) = Except.ok (is.set.getD ip 0) ∧
        is.Contains (is.set.getD ip 0) = true) := by
  refine ⟨?_, ?_, ?_⟩
  · intro he r
    unfold IntSet.Choose
    rw [if_pos he]
  · intro he e
    unfold IntSet.Choose
    rw [if_neg (by rw [he]; exact Bool.false_ne_true)]
  · intro he ip hip
    constructor
    · unfold IntSet.Choose
      rw [if_neg (by rw [he]; exact Bool.false_ne_true)]
    · apply contains_of_mem is hinv
      exact (mem_values_iff is hinv.2.1 _).mpr ⟨ip, hip, rfl⟩

/-- Witness for C9 at a concrete set and draw. -/
theorem C9_choose_witness :
    (NewN 5 [1, 2, 4]).Contains ((NewN 5 [1, 2, 4]).set.getD 2 0) = true :=
  ((C9_choose (NewN 5 [1, 2, 4]) (by decide)).2.2 (by decide) 2 (by decide)).2

/-- Claim C10: constructing a set with a negative universe size panics in the
slice allocation (modelled as none) instead of producing any set, so the
non-negativity of the universe size is a genuine caller precondition. -/
theorem C10_new_negative_universe (u : Int) (values : List Int) (h : u < 0) :
    New u values = none ∧ ∀ s : IntSet, New u values ≠ some s := by
  constructor
  · unfold New
    rw [if_pos h]
  · intro s hs
    unfold New at hs
    rw [if_pos h] at hs
    exact Option.noConfusion hs

/-- Witness for C10 at a concrete negative universe size. -/
theorem C10_new_negative_universe_witness : New (-1) [3] = none :=
  (C10_new_negative_universe (-1) [3] (by decide)).1

end intset
